import Mathlib

/-!
Verification development for the Meow-Coverage repository.

The Rust sources are shallowly embedded below.  Conventions used throughout:

* Machine integers (`u32`, `u64`, `i64`) are modelled as `Nat`/`Int`; wrap-around
  is made explicit (`% 2 ^ 32`) exactly where the source can overflow
  (the `val - 1` subtraction in `build_lines`).  Rust release-profile semantics
  (two's-complement wrapping) is used for that subtraction.
* `f64` is modelled by `F64` below: NaN and the two infinities are tracked
  exactly, finite values are carried as exact rationals.  IEEE rounding of
  finite arithmetic is abstracted away; every concrete number appearing in a
  theorem below is exactly representable in binary64, so the modelled value
  agrees with the value the Rust program computes there.
* Rust `Vec` accumulators that are pushed at the end and mutated through
  `last_mut()` are represented as Lean lists kept in reverse order (head =
  most recently pushed element) and reversed once the fold is finished.
* Stable sorts (`Vec::sort`, itertools `sorted` / `sorted_by`) are modelled by
  `List.insertionSort`, which is a stable sort and is executable by `decide`.
-/

/-- Model of Rust `f64` for the values flowing through this program:
`nan`, the two infinities, and finite values as exact rationals. -/
inductive F64 where
  | nan : F64
  | inf : F64
  | neginf : F64
  | fin : ℚ → F64
deriving DecidableEq, Repr

namespace F64

/-- Rust `f64::clamp(lo, hi)`: NaN propagates, infinities clamp to the bounds,
finite values are clamped exactly. -/
def clamp (x : F64) (lo hi : ℚ) : F64 :=
  match x with
  | nan => nan
  | inf => fin hi
  | neginf => fin lo
  | fin q => fin (min hi (max lo q))

/-- Multiplication of an `f64` by the positive constant `100.0` (used by
`percentage` and `make_percent`): NaN and infinities propagate. -/
def mul100 (x : F64) : F64 :=
  match x with
  | nan => nan
  | inf => inf
  | neginf => neginf
  | fin q => fin (q * 100)

/-- Rounding to the nearest integer, ties away from zero, on an exact
rational: the behaviour of Rust `f64::round` on finite values. -/
def roundQ (q : ℚ) : ℤ :=
  if 0 ≤ q then ⌊q + 1 / 2⌋ else -⌊-q + 1 / 2⌋

/-- Rust `f64::round`: NaN and infinities propagate, finite values round
half away from zero. -/
def round (x : F64) : F64 :=
  match x with
  | nan => nan
  | inf => inf
  | neginf => neginf
  | fin q => fin (roundQ q)

/-- Truncation toward zero of an exact rational, the first half of a Rust
`as` cast from `f64` to an integer type. -/
def truncQ (q : ℚ) : ℤ :=
  if 0 ≤ q then ⌊q⌋ else -⌊-q⌋

/-- Rust `as i16` cast from `f64`: truncate toward zero, saturate at the
`i16` bounds, and map NaN to `0`. -/
def toI16 (x : F64) : ℤ :=
  match x with
  | nan => 0
  | inf => 32767
  | neginf => -32768
  | fin q => max (-32768) (min 32767 (truncQ q))

end F64

/-- Division `f64::from(h) / f64::from(f)` of two nonnegative integer-valued
floats, as produced from `u32`/`u64` inputs: `0/0` is NaN, `h/0` with
`h > 0` is `+inf`, otherwise the exact quotient. -/
def fdivNat (h f : Nat) : F64 :=
  if f = 0 then (if h = 0 then F64.nan else F64.inf) else F64.fin ((h : ℚ) / (f : ℚ))

/-- The lcov record variants consumed by `LcovWrapper` (all other variants
fall into the catch-all arm of the source `match`, modelled by `other`). -/
inductive LcovRecord where
  | sourceFile : String → LcovRecord
  | lineData : Nat → Nat → LcovRecord
  | linesHit : Nat → LcovRecord
  | linesFound : Nat → LcovRecord
  | other : LcovRecord
deriving DecidableEq, Repr

/-- Embedding of `struct LcovFileCoverage` from `crates/shared/src/lib.rs`. -/
structure LcovFileCoverage where
  filename : String
  percentage : F64
  lines : List Nat
deriving DecidableEq, Repr

namespace LcovWrapper

/-- State threaded through the `group_data` loop: the files pushed so far
(in reverse order, head = `files.last_mut()`), and the pending
`lines_hit` / `lines_found` buffers. -/
structure GroupState where
  files : List LcovFileCoverage
  lines_hit : Option Nat
  lines_found : Option Nat

/-- Write `percentage` on `files.last_mut()` (the head of the reversed
list); a no-op when there is no file yet, as in the source. -/
def setLastPercentage (files : List LcovFileCoverage) (p : F64) : List LcovFileCoverage :=
  match files with
  | [] => []
  | f :: rest => { f with percentage := p } :: rest

/-- Push `line` on `files.last_mut().lines` (the head of the reversed list,
whose `lines` are themselves kept reversed); a no-op when there is no file. -/
def pushLastLine (files : List LcovFileCoverage) (line : Nat) : List LcovFileCoverage :=
  match files with
  | [] => []
  | f :: rest => { f with lines := line :: f.lines } :: rest

/-- One iteration of the `for record in &self.0` loop of
`LcovWrapper::group_data` (`crates/shared/src/lib.rs`, lines 80-127). -/
def groupStep (st : GroupState) (r : LcovRecord) : GroupState :=
  match r with
  | .sourceFile path =>
      ⟨⟨path, F64.fin 0, []⟩ :: st.files, none, none⟩
  | .lineData line count =>
      if count = 0 then ⟨pushLastLine st.files line, st.lines_hit, st.lines_found⟩ else st
  | .linesHit hit =>
      match st.lines_found with
      | some found => ⟨setLastPercentage st.files (fdivNat hit found), none, none⟩
      | none => ⟨st.files, some hit, none⟩
  | .linesFound found =>
      match st.lines_hit with
      | some hit => ⟨setLastPercentage st.files (fdivNat hit found), none, none⟩
      | none => ⟨st.files, none, some found⟩
  | .other => st

/-- Embedding of `LcovWrapper::group_data` (`crates/shared/src/lib.rs`,
lines 75-134): stream the records, then sort each file's `lines`
ascending (`file.lines.sort()`).  The older duplicate of this function in
`src/coverage/lcov.rs` lacks the final sort; the workspace crate version is
embedded here.  Note that the per-file percentage is `hit / found` with no
`* 100.0`. -/
def group_data (records : List LcovRecord) : List LcovFileCoverage :=
  ((records.foldl groupStep ⟨[], none, none⟩).files.reverse).map
    (fun f => { f with lines := List.insertionSort (· ≤ ·) f.lines.reverse })

/-- Sum of all `LinesHit` records, as in the fold of `LcovWrapper::percentage`. -/
def sumLinesHit (records : List LcovRecord) : Nat :=
  records.foldl
    (fun acc r => match r with | .linesHit hit => acc + hit | _ => acc) 0

/-- Sum of all `LinesFound` records, as in the fold of `LcovWrapper::percentage`. -/
def sumLinesFound (records : List LcovRecord) : Nat :=
  records.foldl
    (fun acc r => match r with | .linesFound found => acc + found | _ => acc) 0

/-- Embedding of `LcovWrapper::percentage` (`crates/shared/src/lib.rs`,
lines 56-65): `(lines_hit as f64 / lines_found as f64) * 100.0`. -/
def percentage (records : List LcovRecord) : F64 :=
  (fdivNat (sumLinesHit records) (sumLinesFound records)).mul100

end LcovWrapper

/-- Embedding of `make_percent` (`src/tracking.rs`, lines 34-36):
`(p.clamp(-100., 100.) * 100.).round().clamp(-10000., 10000.) as i16`. -/
def make_percent (p : F64) : ℤ :=
  ((((p.clamp (-100) 100).mul100).round).clamp (-10000) 10000).toI16

/-- Kind of one line of a unified-diff hunk (`patch::Line`). -/
inductive PatchLine where
  | add : PatchLine
  | context : PatchLine
  | remove : PatchLine
deriving DecidableEq, Repr

/-- Embedding of `patch::Hunk` restricted to what the program reads: the
`new_range.start` / `new_range.count` header fields and the line kinds. -/
structure Hunk where
  newRangeStart : Nat
  newRangeCount : Nat
  lines : List PatchLine
deriving DecidableEq, Repr

/-- The `hunk.lines.iter().any(..)` walk of `line_changed_in_hunk` with its
mutable `current_line` cursor made explicit: an `Add` line matches when the
cursor equals the target and otherwise advances the cursor, a `Context` line
advances the cursor, a `Remove` line does not advance it. -/
def lineWalk (targetLine : Nat) : List PatchLine → Nat → Bool
  | [], _ => false
  | .add :: rest, cur => if cur = targetLine then true else lineWalk targetLine rest (cur + 1)
  | .context :: rest, cur => lineWalk targetLine rest (cur + 1)
  | .remove :: rest, cur => lineWalk targetLine rest cur

/-- Embedding of `line_changed_in_hunk` (`crates/shared/src/helpers.rs`,
lines 14-35): range guard, then the cursor walk. -/
def line_changed_in_hunk (hunk : Hunk) (targetLine : Nat) : Bool :=
  if targetLine < hunk.newRangeStart ∨ hunk.newRangeStart + hunk.newRangeCount ≤ targetLine then
    false
  else
    lineWalk targetLine hunk.lines hunk.newRangeStart

/-- Embedding of `lines_in_same_hunk` (`crates/shared/src/helpers.rs`,
lines 41-51): some single hunk's new range `[start, start + count)` contains
both lines. -/
def lines_in_same_hunk (hunks : List Hunk) (line1 line2 : Nat) : Bool :=
  hunks.any fun h =>
    decide (h.newRangeStart ≤ line1) && decide (line1 < h.newRangeStart + h.newRangeCount) &&
    decide (h.newRangeStart ≤ line2) && decide (line2 < h.newRangeStart + h.newRangeCount)

/-- Specification-side list of the new-file positions of the `Added` lines of
a hunk body, walked with the same cursor discipline as the source. -/
def addedPositions : List PatchLine → Nat → List Nat
  | [], _ => []
  | .add :: rest, cur => cur :: addedPositions rest (cur + 1)
  | .context :: rest, cur => addedPositions rest (cur + 1)
  | .remove :: rest, cur => addedPositions rest cur

/-- Specification-side list of the new-file positions of the `Context` lines
of a hunk body, walked with the same cursor discipline as the source. -/
def contextPositions : List PatchLine → Nat → List Nat
  | [], _ => []
  | .add :: rest, cur => contextPositions rest (cur + 1)
  | .context :: rest, cur => cur :: contextPositions rest (cur + 1)
  | .remove :: rest, cur => contextPositions rest cur

/-- Boolean test `val >= low && val <= high` used by the dedup guard of
`gather_lines`. -/
def rangeCovers (p : Nat × Nat) (v : Nat) : Bool :=
  decide (p.1 ≤ v) && decide (v ≤ p.2)

/-- The `acc.iter().any(|&(low, high)| val >= low && val <= high)` guard. -/
def coveredIn (acc : List (Nat × Nat)) (v : Nat) : Bool :=
  acc.any fun p => rangeCovers p v

/-- Propositional form of membership of a value in the union of a list of
inclusive ranges. -/
def CoveredP (acc : List (Nat × Nat)) (v : Nat) : Prop :=
  ∃ p ∈ acc, p.1 ≤ v ∧ v ≤ p.2

/-- One step of the `gather_lines` fold (`src/coverage/html.rs`, lines
56-74), on the reversed accumulator (head = `acc.last_mut()`): skip values
already covered, extend the last range when `val != 0 && last.1 == val - 1`,
otherwise push a fresh `(val, val)`. -/
def gatherStep (acc : List (Nat × Nat)) (val : Nat) : List (Nat × Nat) :=
  if coveredIn acc val then acc
  else
    match acc with
    | [] => [(val, val)]
    | (s, e) :: rest =>
        if val ≠ 0 ∧ e = val - 1 then (s, val) :: rest else (val, val) :: (s, e) :: rest

/-- Embedding of `gather_lines` (`src/coverage/html.rs`, lines 56-74): sort
the input ascending (itertools `sorted`, modelled by the stable
`insertionSort`), fold, and un-reverse the accumulator. -/
def gather_lines (lines : List Nat) : List (Nat × Nat) :=
  ((List.insertionSort (· ≤ ·) lines).foldl gatherStep []).reverse

/-- Wrapping `val - 1` on `u32`, the release-profile meaning of the
`last.1 == val - 1` comparison in `build_lines` when `val == 0`. -/
def wrapSub1 (v : Nat) : Nat :=
  (v + (2 ^ 32 - 1)) % 2 ^ 32

/-- One step of the `build_lines` fold
(`crates/meow-coverage/src/tracking/visualisation.rs`, lines 269-282), on the
reversed accumulator: no sorting, no dedup guard, extend exactly when
`last.1 == val - 1` (with `u32` wrap-around at `val == 0`). -/
def buildStep (acc : List (Nat × Nat)) (val : Nat) : List (Nat × Nat) :=
  match acc with
  | [] => [(val, val)]
  | (s, e) :: rest =>
      if e = wrapSub1 val then (s, val) :: rest else (val, val) :: (s, e) :: rest

/-- Embedding of the range-building fold of `build_lines`
(`crates/meow-coverage/src/tracking/visualisation.rs`, lines 269-282); the
markdown rendering around it is not modelled. -/
def build_lines (lines : List Nat) : List (Nat × Nat) :=
  (lines.foldl buildStep []).reverse

/-- One step of the `hunked_lines` fold
(`crates/meow-coverage/src/coverage/pull.rs`, lines 100-112), on the reversed
accumulator: extend the last range's end to `line` when the previous end and
`line` fall inside one hunk, otherwise push a fresh `(line, line)`. -/
def hunkedStep (hunks : List Hunk) (acc : List (Nat × Nat)) (line : Nat) : List (Nat × Nat) :=
  match acc with
  | [] => [(line, line)]
  | (s, e) :: rest =>
      if lines_in_same_hunk hunks e line then (s, line) :: rest
      else (line, line) :: (s, e) :: rest

/-- Embedding of the `hunked_lines` fold of `generate_pr_coverage_report`
(`crates/meow-coverage/src/coverage/pull.rs`, lines 100-112). -/
def hunked_lines (hunks : List Hunk) (rawLines : List Nat) : List (Nat × Nat) :=
  (rawLines.foldl (hunkedStep hunks) []).reverse

/-- Flattening a list of inclusive ranges back into the list of the line
numbers they cover, in order (the `.flatten()` of the idempotence claim). -/
def flattenRanges (ranges : List (Nat × Nat)) : List Nat :=
  ranges.flatMap fun p => List.range' p.1 (p.2 + 1 - p.1)

/-- Embedding of `enum Team` (`crates/meow-coverage/src/tracking/models.rs`,
lines 12-25). -/
inductive Team where
  | instantMessaging : Team
  | workflow : Team
  | infrastructure : Team
  | product : Team
  | security : Team
  | other : Team
deriving DecidableEq, Repr

/-- Embedding of `struct FileCoverageRecord`
(`crates/meow-coverage/src/tracking/models.rs`, lines 70-75); the `i16`
percentage field is carried as an integer. -/
structure FileCoverageRecord where
  percentage : ℤ
  untested_lines : List Nat
deriving DecidableEq, Repr

/-- Embedding of `struct BranchCoverageRecord`
(`crates/meow-coverage/src/tracking/models.rs`, lines 87-95); the `HashMap`
of per-file records is carried as an association list. -/
structure BranchCoverageRecord where
  timestamp : ℤ
  percentage : ℤ
  files : Option (List (String × FileCoverageRecord))
deriving DecidableEq, Repr

/-- Embedding of `struct BranchCoverageRecordCollection`
(`crates/meow-coverage/src/tracking/models.rs`, lines 99-105). -/
structure BranchCoverageRecordCollection where
  team : Team
  records : List BranchCoverageRecord
deriving DecidableEq, Repr

/-- Number of seconds in `time::Duration::days(90)`. -/
def ninetyDaysSeconds : ℤ := 7776000

namespace BranchCoverageRecordCollection

/-- Maximum timestamp of a list of records.  This models
`latest_timestamp` (`models.rs`, lines 151-153), which sorts the timestamps
descending and takes the first: the result is exactly the maximum value. -/
def maxTs : List BranchCoverageRecord → Option ℤ
  | [] => none
  | r :: rest =>
      some (match maxTs rest with
            | none => r.timestamp
            | some t => max r.timestamp t)

/-- Embedding of `latest_timestamp` (`models.rs`, lines 151-153). -/
def latest_timestamp (c : BranchCoverageRecordCollection) : Option ℤ :=
  maxTs c.records

/-- Embedding of `remove_old_records` (`models.rs`, lines 133-136):
retain the records whose timestamp is at least `current_time - 90 days`. -/
def remove_old_records (c : BranchCoverageRecordCollection) (currentTime : ℤ) :
    BranchCoverageRecordCollection :=
  { c with
    records := c.records.filter fun item => decide (currentTime - ninetyDaysSeconds ≤ item.timestamp) }

/-- The detail-stripping pass at the end of `add_new_record`: clear `files`
on every record whose timestamp differs from the highest one. -/
def stripOld (highest : ℤ) (r : BranchCoverageRecord) : BranchCoverageRecord :=
  if r.timestamp ≠ highest then { r with files := none } else r

/-- Embedding of `add_new_record` (`models.rs`, lines 109-130).  The source
reads the clock itself (`OffsetDateTime::now_utc()`); the append time is the
explicit parameter `now` here.  Push the new record, purge records older
than 90 days, then clear `files` on every record that does not carry the
highest timestamp.  The `expect` on `latest_timestamp` cannot fail because
the just-pushed record always survives the purge; the unreachable `none` arm
is modelled as the identity. -/
def add_new_record (c : BranchCoverageRecordCollection) (percentage : F64)
    (files : List (String × FileCoverageRecord)) (now : ℤ) :
    BranchCoverageRecordCollection :=
  let pushed : BranchCoverageRecordCollection :=
    { c with records := c.records ++ [⟨now, make_percent percentage, some files⟩] }
  let purged := remove_old_records pushed now
  match latest_timestamp purged with
  | some highest => { purged with records := purged.records.map (stripOld highest) }
  | none => purged

/-- Timestamp order on records, the comparator of the
`sorted_by(|l, r| Ord::cmp(&l.timestamp, &r.timestamp))` call in `delta`. -/
def tsLe (a b : BranchCoverageRecord) : Prop :=
  a.timestamp ≤ b.timestamp

instance : DecidableRel tsLe :=
  fun a b => inferInstanceAs (Decidable (a.timestamp ≤ b.timestamp))

instance : IsTotal BranchCoverageRecord tsLe :=
  ⟨fun a b => Int.le_total a.timestamp b.timestamp⟩

instance : IsTrans BranchCoverageRecord tsLe :=
  ⟨fun _ _ _ h1 h2 => le_trans h1 h2⟩

/-- The records whose timestamp lies in the inclusive window
`[periodStartTs, periodEndTs]`: the filter of `delta` (`models.rs`,
line 179). -/
def windowMatches (c : BranchCoverageRecordCollection) (periodStartTs periodEndTs : ℤ) :
    List BranchCoverageRecord :=
  c.records.filter fun item =>
    decide (periodStartTs ≤ item.timestamp) && decide (item.timestamp ≤ periodEndTs)

/-- Embedding of `delta` (`models.rs`, lines 174-190): filter the window,
sort ascending by timestamp (stable), read `iter.next()` (the head) as
`oldest` and `iter.last()` (the last of the remainder) as `newest`; `none`
on an empty window, `oldest.percentage` when `newest` is absent, otherwise
`newest.percentage - oldest.percentage`.  The `i16` subtraction is modelled
as exact integer subtraction (it cannot leave `i16` for the values
`make_percent` produces). -/
def delta (c : BranchCoverageRecordCollection) (periodStartTs periodEndTs : ℤ) : Option ℤ :=
  match List.insertionSort tsLe (windowMatches c periodStartTs periodEndTs) with
  | [] => none
  | oldest :: rest =>
      match rest.getLast? with
      | some newest => some (newest.percentage - oldest.percentage)
      | none => some oldest.percentage

/-- Embedding of `delta_duration` (`models.rs`, lines 194-199); the
`duration.as_seconds_f64() as i64` conversion is exact for whole days. -/
def delta_duration (c : BranchCoverageRecordCollection) (durationSeconds : ℤ) : Option ℤ :=
  match latest_timestamp c with
  | none => none
  | some periodEndTs => delta c (periodEndTs - durationSeconds) periodEndTs

end BranchCoverageRecordCollection

/-! Helper lemmas about the hunk walk. -/

theorem addedPositions_le {lines : List PatchLine} {cur x : Nat}
    (hx : x ∈ addedPositions lines cur) : cur ≤ x := by
  induction lines generalizing cur with
  | nil => simp [addedPositions] at hx
  | cons l rest ih =>
      cases l with
      | add =>
          simp only [addedPositions, List.mem_cons] at hx
          rcases hx with rfl | hx
          · exact le_refl _
          · exact le_trans (Nat.le_succ _) (ih hx)
      | context =>
          exact le_trans (Nat.le_succ _) (ih hx)
      | remove =>
          exact ih hx

theorem contextPositions_le {lines : List PatchLine} {cur x : Nat}
    (hx : x ∈ contextPositions lines cur) : cur ≤ x := by
  induction lines generalizing cur with
  | nil => simp [contextPositions] at hx
  | cons l rest ih =>
      cases l with
      | add =>
          exact le_trans (Nat.le_succ _) (ih hx)
      | context =>
          simp only [contextPositions, List.mem_cons] at hx
          rcases hx with rfl | hx
          · exact le_refl _
          · exact le_trans (Nat.le_succ _) (ih hx)
      | remove =>
          exact ih hx

theorem lineWalk_eq_true_iff (lines : List PatchLine) (cur t : Nat) :
    lineWalk t lines cur = true ↔ t ∈ addedPositions lines cur := by
  induction lines generalizing cur with
  | nil => simp [lineWalk, addedPositions]
  | cons l rest ih =>
      cases l with
      | add =>
          by_cases h : cur = t
        

          · subst h
            simp [lineWalk, addedPositions]
          · simp only [lineWalk, addedPositions, if_neg h, List.mem_cons, ih]
            constructor
            · exact fun hx => Or.inr hx
            · rintro (rfl | hx)
              · exact absurd rfl h
              · exact hx
      | context =>
          simpa [lineWalk, addedPositions] using ih (cur + 1)
      | remove =>
          simpa [lineWalk, addedPositions] using ih cur

theorem context_not_added {lines : List PatchLine} {cur t : Nat}
    (hc : t ∈ contextPositions lines cur) : t ∉ addedPositions lines cur := by
  induction lines generalizing cur with
  | nil => simp [addedPositions]
  | cons l rest ih =>
      cases l with
      | add =>
          intro ha
          simp only [contextPositions] at hc
          simp only [addedPositions, List.mem_cons] at ha
          rcases ha with rfl | ha
          · exact absurd (contextPositions_le hc) (by omega)
          · exact ih hc ha
      | context =>
          simp only [contextPositions, List.mem_cons] at hc
          rcases hc with rfl | hc
          · intro ha
            simp only [addedPositions] at ha
            exact absurd (addedPositions_le ha) (by omega)
          · exact ih hc
      | remove =>
          exact ih hc

/-- C3.  `line_changed_in_hunk` returns false for a target left of
`newRangeStart` or at/after `newRangeStart + newRangeCount`; for an in-range
target it returns true exactly when the cursor walk over `hunk.lines`
(advance on `Added` and `Context`, stall on `Removed`) places an `Added`
line at the target, and a target sitting at a `Context` position always
yields false. -/
theorem line_changed_in_hunk_spec (hunk : Hunk) (t : Nat) :
    ((t < hunk.newRangeStart ∨ hunk.newRangeStart + hunk.newRangeCount ≤ t) →
      line_changed_in_hunk hunk t = false) ∧
    (hunk.newRangeStart ≤ t → t < hunk.newRangeStart + hunk.newRangeCount →
      (line_changed_in_hunk hunk t = true ↔
        t ∈ addedPositions hunk.lines hunk.newRangeStart)) ∧
    (t ∈ contextPositions hunk.lines hunk.newRangeStart →
      line_changed_in_hunk hunk t = false) := by
  refine ⟨fun hout => ?_, fun h1 h2 => ?_, fun hc => ?_⟩
  · simp only [line_changed_in_hunk, if_pos hout]
  · rw [line_changed_in_hunk, if_neg (by omega)]
    exact lineWalk_eq_true_iff hunk.lines hunk.newRangeStart t
  · rw [line_changed_in_hunk]
    by_cases hout : t < hunk.newRangeStart ∨ hunk.newRangeStart + hunk.newRangeCount ≤ t
    · rw [if_pos hout]
    · rw [if_neg hout]
      rw [Bool.eq_false_iff]
      intro hw
      exact context_not_added hc ((lineWalk_eq_true_iff hunk.lines hunk.newRangeStart t).mp hw)

/-- Witness for C3: a two-line hunk starting at line 1 whose first line is
added; target line 1 is reported changed. -/
theorem line_changed_in_hunk_spec_witness :
    line_changed_in_hunk ⟨1, 2, [PatchLine.add, PatchLine.context]⟩ 1 = true :=
  ((line_changed_in_hunk_spec ⟨1, 2, [PatchLine.add, PatchLine.context]⟩ 1).2.1
    (by decide) (by decide)).mpr (by decide)

/-! Invariants of the coalescing accumulators.  The fold accumulator is kept
in reverse order (head = most recent range), so its well-formedness
predicate `ROk` reads right-to-left; the emitted output (after the final
`reverse`) satisfies the mirrored ascending predicate `AOk`. -/

/-- Well-formed reversed accumulator: every range is nonempty
(`start ≤ end`) and each range begins at least two past the end of the next
older one (descending order with gaps, so that ranges never touch). -/
def ROk (acc : List (Nat × Nat)) : Prop :=
  List.Chain' (fun p q => q.2 + 2 ≤ p.1) acc ∧ ∀ p ∈ acc, p.1 ≤ p.2

/-- Well-formed ascending output: nonempty ranges, strictly ascending with a
gap of at least two between consecutive ranges. -/
def AOk (out : List (Nat × Nat)) : Prop :=
  List.Chain' (fun p q => p.2 + 2 ≤ q.1) out ∧ ∀ p ∈ out, p.1 ≤ p.2

theorem coveredIn_iff (acc : List (Nat × Nat)) (v : Nat) :
    coveredIn acc v = true ↔ CoveredP acc v := by
  simp [coveredIn, rangeCovers, CoveredP, List.any_eq_true]

theorem ROk_tail_ends {s e : Nat} {racc : List (Nat × Nat)}
    (h : ROk ((s, e) :: racc)) : ∀ p ∈ racc, p.2 + 2 ≤ s := by
  induction racc generalizing s e with
  | nil => intro p hp; simp at hp
  | cons q racc2 ih =>
      intro p hp
      obtain ⟨hchain, hbnd⟩ := h
      rw [List.chain'_cons] at hchain
      rcases List.mem_cons.mp hp with rfl | hp2
      · exact hchain.1
      · have hq : q.1 ≤ q.2 := hbnd q (by simp)
        have hrec := ih (s := q.1) (e := q.2)
          ⟨by simpa using hchain.2, by
            intro p2 hp2m
            rcases List.mem_cons.mp hp2m with rfl | hmem
            · exact hq
            · exact hbnd p2 (by simp [hmem])⟩ p hp2
        omega

theorem AOk_head_le {s e : Nat} {rest : List (Nat × Nat)}
    (h : AOk ((s, e) :: rest)) : ∀ q ∈ rest, e + 2 ≤ q.1 := by
  induction rest generalizing s e with
  | nil => intro q hq; simp at hq
  | cons p rest2 ih =>
      intro q hq
      obtain ⟨hchain, hbnd⟩ := h
      rw [List.chain'_cons] at hchain
      rcases List.mem_cons.mp hq with rfl | hq2
      · exact hchain.1
      · have hp : p.1 ≤ p.2 := hbnd p (by simp)
        have hrec := ih (s := p.1) (e := p.2)
          ⟨by simpa using hchain.2, by
            intro p2 hp2m
            rcases List.mem_cons.mp hp2m with rfl | hmem
            · exact hp
            · exact hbnd p2 (by simp [hmem])⟩ q hq2
        omega

theorem gatherStep_spec (acc : List (Nat × Nat)) (v : Nat)
    (hok : ROk acc) (hub : ∀ p ∈ acc, p.2 ≤ v) :
    ROk (gatherStep acc v) ∧
    (∀ w, CoveredP (gatherStep acc v) w ↔ CoveredP acc w ∨ w = v) ∧
    (∀ p ∈ gatherStep acc v, p.2 ≤ v) := by
  by_cases hcov : coveredIn acc v = true
  · have hcp : CoveredP acc v := (coveredIn_iff acc v).mp hcov
    rw [gatherStep.eq_def, if_pos hcov]
    refine ⟨hok, fun w => ?_, hub⟩
    constructor
    · exact fun h => Or.inl h
    · rintro (h | rfl)
      · exact h
      · exact hcp
  · have hncp : ¬ CoveredP acc v := fun h => hcov ((coveredIn_iff acc v).mpr h)
    cases acc with
    | nil =>
        simp only [gatherStep.eq_def, if_neg hcov]
        refine ⟨⟨List.chain'_singleton _, ?_⟩, fun w => ?_, ?_⟩
        · intro p hp
          rcases List.mem_singleton.mp hp with rfl
          exact le_refl v
        · simp only [CoveredP, List.mem_singleton, List.not_mem_nil]
          constructor
          · rintro ⟨p, rfl, h1, h2⟩
            exact Or.inr (by omega)
          · rintro (⟨p, hfalse, _⟩ | rfl)
            · exact absurd hfalse (by simp)
            · exact ⟨(w, w), rfl, le_refl w, le_refl w⟩
        · intro p hp
          rcases List.mem_singleton.mp hp with rfl
          exact le_refl v
    | cons hd rest =>
        obtain ⟨s, e⟩ := hd
        simp only [gatherStep.eq_def, if_neg hcov]
        have hse : s ≤ e := hok.2 (s, e) (by simp)
        have hev : e ≤ v := hub (s, e) (by simp)
        have hlt : e < v := by
          rcases Nat.lt_or_ge e v with h | h
          · exact h
          · exact absurd ⟨(s, e), by simp, by omega, by omega⟩ hncp
        have htails := ROk_tail_ends hok
        have hchain2 : List.Chain' (fun p q => q.2 + 2 ≤ p.1) rest := (List.chain'_cons'.mp hok.1).2
        by_cases hcond : v ≠ 0 ∧ e = v - 1
        · rw [if_pos hcond]
          refine ⟨⟨List.chain'_cons'.mpr ⟨?_, hchain2⟩, ?_⟩, fun w => ?_, ?_⟩
          · intro y hy
            exact (List.chain'_cons'.mp hok.1).1 y hy
          · intro p hp
            rcases List.mem_cons.mp hp with rfl | hmem
            · omega
            · exact hok.2 p (by simp [hmem])
          · simp only [CoveredP, List.mem_cons]
            constructor
            · rintro ⟨p, hp, h1, h2⟩
              rcases hp with rfl | hmem
              · simp only at h1 h2
                rcases Nat.lt_or_ge w v with hwv | hwv
                · exact Or.inl ⟨(s, e), Or.inl rfl, by omega, by omega⟩
                · exact Or.inr (by omega)
              · exact Or.inl ⟨p, Or.inr hmem, h1, h2⟩
            · rintro (⟨p, hp, h1, h2⟩ | rfl)
              · rcases hp with rfl | hmem
                · exact ⟨(s, v), Or.inl rfl, by simpa using h1, by simp only; omega⟩
                · exact ⟨p, Or.inr hmem, h1, h2⟩
              · exact ⟨(s, w), Or.inl rfl, by simp only; omega, by simp⟩
          · intro p hp
            rcases List.mem_cons.mp hp with rfl | hmem
            · exact le_refl v
            · exact le_trans (hub p (by simp [hmem])) (le_refl v)
        · rw [if_neg hcond]
          have hgap : e + 2 ≤ v := by omega
          refine ⟨⟨List.chain'_cons.mpr ⟨hgap, hok.1⟩, ?_⟩, fun w => ?_, ?_⟩
          · intro p hp
            rcases List.mem_cons.mp hp with rfl | hmem
            · exact le_refl v
            · exact hok.2 p hmem
          · simp only [CoveredP, List.mem_cons]
            constructor
            · rintro ⟨p, hp, h1, h2⟩
              rcases hp with rfl | hmem
              · exact Or.inr (by omega)
              · exact Or.inl ⟨p, hmem, h1, h2⟩
            · rintro (⟨p, hp, h1, h2⟩ | rfl)
              · exact ⟨p, Or.inr hp, h1, h2⟩
              · exact ⟨(w, w), Or.inl rfl, le_refl w, le_refl w⟩
          · intro p hp
            rcases List.mem_cons.mp hp with rfl | hmem
            · exact le_refl v
            · exact hub p hmem

theorem gather_fold_spec :
    ∀ (l : List Nat) (acc : List (Nat × Nat)),
      List.Sorted (· ≤ ·) l → ROk acc → (∀ v ∈ l, ∀ p ∈ acc, p.2 ≤ v) →
      ROk (l.foldl gatherStep acc) ∧
      (∀ w, CoveredP (l.foldl gatherStep acc) w ↔ CoveredP acc w ∨ w ∈ l) := by
  intro l
  induction l with
  | nil =>
      intro acc _ hok _
      exact ⟨hok, fun w => by simp⟩
  | cons v l2 ih =>
      intro acc hsort hok hub
      rw [List.sorted_cons] at hsort
      obtain ⟨hstep_ok, hstep_cov, hstep_ends⟩ :=
        gatherStep_spec acc v hok (fun p hp => hub v (by simp) p hp)
      have hub2 : ∀ u ∈ l2, ∀ p ∈ gatherStep acc v, p.2 ≤ u :=
        fun u hu p hp => le_trans (hstep_ends p hp) (hsort.1 u hu)
      obtain ⟨hres_ok, hres_cov⟩ := ih (gatherStep acc v) hsort.2 hstep_ok hub2
      rw [List.foldl_cons]
      refine ⟨hres_ok, fun w => ?_⟩
      rw [hres_cov w, hstep_cov w, List.mem_cons]
      tauto

theorem gather_lines_ROk (x : List Nat) :
    ROk ((List.insertionSort (· ≤ ·) x).foldl gatherStep []) := by
  refine (gather_fold_spec (List.insertionSort (· ≤ ·) x) []
    (List.sorted_insertionSort (· ≤ ·) x) ⟨List.chain'_nil, ?_⟩ ?_).1
  · intro p hp; simp at hp
  · intro v _ p hp; simp at hp

theorem gather_lines_covered (x : List Nat) (v : Nat) :
    CoveredP (gather_lines x) v ↔ v ∈ x := by
  have h := (gather_fold_spec (List.insertionSort (· ≤ ·) x) []
    (List.sorted_insertionSort (· ≤ ·) x) ⟨List.chain'_nil, by intro p hp; simp at hp⟩
    (by intro u _ p hp; simp at hp)).2 v
  have hrev : CoveredP (gather_lines x) v ↔
      CoveredP ((List.insertionSort (· ≤ ·) x).foldl gatherStep []) v := by
    simp [gather_lines, CoveredP, List.mem_reverse]
  rw [hrev, h]
  have hperm := List.perm_insertionSort (· ≤ ·) x
  simp [CoveredP, hperm.mem_iff]

theorem hunked_fold_spec (hunks : List Hunk) :
    ∀ (l : List Nat) (acc : List (Nat × Nat)),
      List.Sorted (· ≤ ·) l → (∀ p ∈ acc, p.1 ≤ p.2) →
      (∀ u ∈ l, ∀ q ∈ acc.head?, q.2 ≤ u) →
      (∀ w, CoveredP acc w → CoveredP (l.foldl (hunkedStep hunks) acc) w) ∧
      (∀ v ∈ l, CoveredP (l.foldl (hunkedStep hunks) acc) v) := by
  intro l
  induction l with
  | nil =>
      intro acc _ _ _
      exact ⟨fun w h => h, by intro v hv; simp at hv⟩
  | cons u l2 ih =>
      intro acc hsort hbnd hhead
      rw [List.sorted_cons] at hsort
      have hstep :
          (∀ w, CoveredP acc w → CoveredP (hunkedStep hunks acc u) w) ∧
          CoveredP (hunkedStep hunks acc u) u ∧
          (∀ p ∈ hunkedStep hunks acc u, p.1 ≤ p.2) ∧
          (∀ q ∈ (hunkedStep hunks acc u).head?, q.2 = u) := by
        match acc with
        | [] =>
            rw [hunkedStep]
            refine ⟨?_, ⟨(u, u), by simp, le_refl u, le_refl u⟩, ?_, ?_⟩
            · rintro w ⟨p, hp, h1, h2⟩
              exact absurd hp (List.not_mem_nil p)
            · intro p hp
              rcases List.mem_singleton.mp hp with rfl
              exact le_refl u
            · intro q hq
              simp only [List.head?_cons, Option.mem_def, Option.some.injEq] at hq
              rw [← hq]
        | (s, e) :: rest =>
            have hse : s ≤ e := hbnd (s, e) (by simp)
            have heu : e ≤ u := hhead u (by simp) (s, e) rfl
            rw [hunkedStep]
            by_cases hsame : lines_in_same_hunk hunks e u = true
            · rw [if_pos hsame]
              refine ⟨?_, ⟨(s, u), by simp, by omega, le_refl u⟩, ?_, ?_⟩
              · rintro w ⟨p, hp, h1, h2⟩
                rcases List.mem_cons.mp hp with rfl | hmem
                · exact ⟨(s, u), by simp, h1, by simp only at h2 ⊢; omega⟩
                · exact ⟨p, by simp [hmem], h1, h2⟩
              · intro p hp
                rcases List.mem_cons.mp hp with rfl | hmem
                · omega
                · exact hbnd p (by simp [hmem])
              · intro q hq
                simp only [List.head?_cons, Option.mem_def, Option.some.injEq] at hq
                rw [← hq]
            · rw [if_neg hsame]
              refine ⟨?_, ⟨(u, u), by simp, le_refl u, le_refl u⟩, ?_, ?_⟩
              · rintro w ⟨p, hp, h1, h2⟩
                exact ⟨p, by simp [List.mem_cons.mp hp], h1, h2⟩
              · intro p hp
                rcases List.mem_cons.mp hp with rfl | hmem
                · exact le_refl u
                · exact hbnd p hmem
              · intro q hq
                simp only [List.head?_cons, Option.mem_def, Option.some.injEq] at hq
                rw [← hq]
      obtain ⟨hmono, hcovu, hbnd2, hhead2⟩ := hstep
      have hres := ih (hunkedStep hunks acc u) hsort.2 hbnd2
        (fun u2 hu2 q hq => le_of_eq_of_le (hhead2 q hq) (hsort.1 u2 hu2))
      rw [List.foldl_cons]
      refine ⟨fun w hw => hres.1 w (hmono w hw), ?_⟩
      intro v hv
      rcases List.mem_cons.mp hv with rfl | hmem
      · exact hres.1 v hcovu
      · exact hres.2 v hmem

theorem AOk_of_ROk_reverse {racc : List (Nat × Nat)} (h : ROk racc) : AOk racc.reverse := by
  constructor
  · rw [List.chain'_reverse]
    exact h.1
  · intro p hp
    exact h.2 p (List.mem_reverse.mp hp)

theorem gather_fold_extend :
    ∀ (k s e : Nat) (racc : List (Nat × Nat)),
      ROk ((s, e) :: racc) →
      List.foldl gatherStep ((s, e) :: racc) (List.range' (e + 1) k) = (s, e + k) :: racc := by
  intro k
  induction k with
  | zero =>
      intro s e racc _
      simp
  | succ k2 ih =>
      intro s e racc hok
      have hse : s ≤ e := hok.2 (s, e) (by simp)
      have htails := ROk_tail_ends hok
      rw [List.range'_succ, List.foldl_cons]
      have hstep : gatherStep ((s, e) :: racc) (e + 1) = (s, e + 1) :: racc := by
        have hncov : ¬ coveredIn ((s, e) :: racc) (e + 1) = true := by
          rw [coveredIn_iff]
          rintro ⟨p, hp, h1, h2⟩
          rcases List.mem_cons.mp hp with rfl | hmem
          · simp only at h1 h2; omega
          · have := htails p hmem
            omega
        rw [gatherStep.eq_def, if_neg hncov]
        show (if e + 1 ≠ 0 ∧ e = e + 1 - 1 then (s, e + 1) :: racc
          else (e + 1, e + 1) :: (s, e) :: racc) = (s, e + 1) :: racc
        rw [if_pos (by omega)]
      rw [hstep]
      have hok2 : ROk ((s, e + 1) :: racc) := by
        refine ⟨List.chain'_cons'.mpr ⟨?_, (List.chain'_cons'.mp hok.1).2⟩, ?_⟩
        · intro y hy
          exact (List.chain'_cons'.mp hok.1).1 y hy
        · intro p hp
          rcases List.mem_cons.mp hp with rfl | hmem
          · omega
          · exact hok.2 p (by simp [hmem])
      have := ih s (e + 1) racc hok2
      rw [show e + 1 + 1 = e + 2 from rfl] at this
      rw [this]
      have : e + 1 + k2 = e + (k2 + 1) := by omega
      rw [this]

theorem gather_fold_range :
    ∀ (s n : Nat) (racc : List (Nat × Nat)),
      ROk racc → (∀ p ∈ racc, p.2 + 2 ≤ s) →
      List.foldl gatherStep racc (List.range' s (n + 1)) = (s, s + n) :: racc := by
  intro s n racc hok hgap
  rw [List.range'_succ, List.foldl_cons]
  have hncov : ¬ coveredIn racc s = true := by
    rw [coveredIn_iff]
    rintro ⟨p, hp, h1, h2⟩
    have := hgap p hp
    omega
  have hstep : gatherStep racc s = (s, s) :: racc := by
    rw [gatherStep.eq_def, if_neg hncov]
    match racc with
    | [] => rfl
    | (s0, e0) :: rest0 =>
        have hge := hgap (s0, e0) (by simp)
        simp only at hge
        show (if s ≠ 0 ∧ e0 = s - 1 then (s0, s) :: rest0
          else (s, s) :: (s0, e0) :: rest0) = (s, s) :: (s0, e0) :: rest0
        rw [if_neg (by omega)]
  rw [hstep]
  have hok2 : ROk ((s, s) :: racc) := by
    refine ⟨List.chain'_cons'.mpr ⟨?_, hok.1⟩, ?_⟩
    · intro y hy
      have : y ∈ racc := by
        cases racc with
        | nil => simp at hy
        | cons z zs =>
            simp only [List.head?_cons, Option.mem_def, Option.some.injEq] at hy
            rw [← hy]; simp
      exact hgap y this
    · intro p hp
      rcases List.mem_cons.mp hp with rfl | hmem
      · exact le_refl s
      · exact hok.2 p hmem
  have := gather_fold_extend n s s racc hok2
  rw [show s + 1 = s + 1 from rfl] at this
  exact this

theorem mem_flattenRanges {L : List (Nat × Nat)} {v : Nat} :
    v ∈ flattenRanges L ↔ ∃ p ∈ L, p.1 ≤ v ∧ v ≤ p.2 := by
  rw [flattenRanges, List.mem_flatMap]
  constructor
  · rintro ⟨p, hp, hv⟩
    rw [List.mem_range'_1] at hv
    exact ⟨p, hp, by omega⟩
  · rintro ⟨p, hp, h1, h2⟩
    exact ⟨p, hp, List.mem_range'_1.mpr (by omega)⟩

theorem flattenRanges_sorted {out : List (Nat × Nat)} (h : AOk out) :
    List.Sorted (· ≤ ·) (flattenRanges out) := by
  induction out with
  | nil => simp [flattenRanges]
  | cons p rest ih =>
      obtain ⟨s, e⟩ := p
      have hse : s ≤ e := h.2 (s, e) (by simp)
      have hstarts := AOk_head_le h
      have hrest : AOk rest :=
        ⟨(List.chain'_cons'.mp h.1).2, fun q hq => h.2 q (by simp [hq])⟩
      rw [flattenRanges, List.flatMap_cons, ← flattenRanges]
      rw [List.Sorted, List.pairwise_append]
      refine ⟨(List.pairwise_lt_range' s (e + 1 - s) 1 (by omega)).imp le_of_lt, ih hrest, ?_⟩
      intro a ha b hb
      rw [List.mem_range'_1] at ha
      obtain ⟨q, hq, hq1, hq2⟩ := mem_flattenRanges.mp hb
      have := hstarts q hq
      omega

theorem gather_fold_flatten :
    ∀ (out racc : List (Nat × Nat)),
      AOk out → ROk racc → (∀ p ∈ racc, ∀ q ∈ out, p.2 + 2 ≤ q.1) →
      List.foldl gatherStep racc (flattenRanges out) = out.reverse ++ racc := by
  intro out
  induction out with
  | nil =>
      intro racc _ _ _
      simp [flattenRanges]
  | cons hd rest ih =>
      intro racc hA hR hcross
      obtain ⟨s, e⟩ := hd
      have hse : s ≤ e := hA.2 (s, e) (by simp)
      have hstarts := AOk_head_le hA
      have hrest : AOk rest :=
        ⟨(List.chain'_cons'.mp hA.1).2, fun q hq => hA.2 q (by simp [hq])⟩
      rw [flattenRanges, List.flatMap_cons, ← flattenRanges, List.foldl_append]
      have hn : e + 1 - s = (e - s) + 1 := by omega
      rw [hn, gather_fold_range s (e - s) racc hR (fun p hp => hcross p hp (s, e) (by simp))]
      have hse2 : s + (e - s) = e := by omega
      rw [hse2]
      have hR2 : ROk ((s, e) :: racc) := by
        refine ⟨List.chain'_cons'.mpr ⟨?_, hR.1⟩, ?_⟩
        · intro y hy
          have hymem : y ∈ racc := by
            cases racc with
            | nil => simp at hy
            | cons z zs =>
                simp only [List.head?_cons, Option.mem_def, Option.some.injEq] at hy
                rw [← hy]; simp
          have := hcross y hymem (s, e) (by simp)
          exact this
        · intro p hp
          rcases List.mem_cons.mp hp with rfl | hmem
          · exact hse
          · exact hR.2 p hmem
      have hcross2 : ∀ p ∈ (s, e) :: racc, ∀ q ∈ rest, p.2 + 2 ≤ q.1 := by
        intro p hp q hq
        rcases List.mem_cons.mp hp with rfl | hmem
        · exact hstarts q hq
        · have h1 := hcross p hmem (s, e) (by simp)
          have h2 := hstarts q hq
          simp only at h1
          omega
      rw [ih ((s, e) :: racc) hrest hR2 hcross2]
      simp

/-- C9.  The adjacency coalescer is idempotent: flattening its output back
into the covered line numbers and coalescing again reproduces the output
unchanged. -/
theorem gather_lines_idempotent (x : List Nat) :
    gather_lines (flattenRanges (gather_lines x)) = gather_lines x := by
  have hROk := gather_lines_ROk x
  have hAOk : AOk (gather_lines x) := AOk_of_ROk_reverse hROk
  have hsorted : List.Sorted (· ≤ ·) (flattenRanges (gather_lines x)) :=
    flattenRanges_sorted hAOk
  have hsortid :
      List.insertionSort (· ≤ ·) (flattenRanges (gather_lines x)) =
        flattenRanges (gather_lines x) :=
    List.eq_of_perm_of_sorted (List.perm_insertionSort (· ≤ ·) _)
      (List.sorted_insertionSort (· ≤ ·) _) hsorted
  rw [gather_lines, hsortid]
  rw [gather_fold_flatten (gather_lines x) [] hAOk
    ⟨List.chain'_nil, by intro p hp; simp at hp⟩ (by intro p hp; simp at hp)]
  rw [List.append_nil, List.reverse_reverse]

/-- C1 (code bug, evaluation at the failing input).  On the stream
`SF:a / LF:2 / LH:1` the grouper stores the bare ratio `1/2` as the file
percentage, not `1/2 * 100 = 50` as the aggregate `percentage` function and
the downstream basis-point encoding expect; with `LF:0 / LH:0` the stored
value is NaN (non-finite), matching the division-by-zero contract. -/
theorem group_data_percentage_ratio_eval :
    (LcovWrapper.group_data
        [.sourceFile "a", .linesFound 2, .linesHit 1]).map LcovFileCoverage.percentage =
      [F64.fin (1 / 2)] ∧
    F64.fin (1 / 2) ≠ F64.fin (1 / 2 * 100) ∧
    (LcovWrapper.group_data
        [.sourceFile "a", .linesFound 0, .linesHit 0]).map LcovFileCoverage.percentage =
      [F64.nan] := by
  refine ⟨?_, ?_, ?_⟩
  · simp [LcovWrapper.group_data, LcovWrapper.groupStep, LcovWrapper.setLastPercentage, fdivNat]
  · simp
  · simp [LcovWrapper.group_data, LcovWrapper.groupStep, LcovWrapper.setLastPercentage, fdivNat]

/-- C2 (counterexample).  The fold in `build_lines` does not sort or
deduplicate: on the spec example `[3,1,4,5,6,8,10]` it does not return the
claimed `[(1,1),(3,6),(8,8),(10,10)]`. -/
theorem build_lines_example_counterexample :
    build_lines [3, 1, 4, 5, 6, 8, 10] ≠ [(1, 1), (3, 6), (8, 8), (10, 10)] := by
  decide

/-- C2 (amended).  The sort-and-deduplicate adjacency fold described by the
spec is `gather_lines` in `src/coverage/html.rs`, which satisfies all four
example equations; the fold in `build_lines` has no sort, no dedup guard and
no zero guard, and agrees only on inputs that are already sorted and
deduplicated, returning `[(3,3),(1,1),(4,6),(8,8),(10,10)]` on the unsorted
example. -/
theorem coalesceAdjacent_examples :
    gather_lines [0, 1, 2, 3, 5, 6, 8, 10] = [(0, 3), (5, 6), (8, 8), (10, 10)] ∧
    gather_lines [3, 1, 4, 5, 6, 8, 10] = [(1, 1), (3, 6), (8, 8), (10, 10)] ∧
    gather_lines [] = [] ∧
    gather_lines [0, 0, 1, 0] = [(0, 1)] ∧
    build_lines [0, 1, 2, 3, 5, 6, 8, 10] = [(0, 3), (5, 6), (8, 8), (10, 10)] ∧
    build_lines [] = [] ∧
    build_lines [3, 1, 4, 5, 6, 8, 10] = [(3, 3), (1, 1), (4, 6), (8, 8), (10, 10)] := by
  decide

/-- C4 (counterexample).  In hunk-membership mode the union of the covered
integers is not the deduplicated input set: with one hunk spanning lines
1-100 and input `[10, 50]` the output range `(10, 50)` covers `11`, which is
not an input line. -/
theorem hunked_union_counterexample :
    ¬ (∀ v : Nat,
        (∃ p ∈ hunked_lines [⟨1, 100, []⟩] [10, 50], p.1 ≤ v ∧ v ≤ p.2) ↔ v ∈ [10, 50]) :=
  fun h => absurd ((h 11).mp (by decide)) (by decide)

/-- C4 (amended).  Adjacency mode (`gather_lines`) is total: the union of
the covered integers of its output equals the deduplicated input set, for
every input.  Hunk-membership mode only covers the input: for an ascending
input every input line is covered by some output range, but ranges may also
cover intermediate lines of a hunk that were never in the input. -/
theorem coalescer_union_spec :
    (∀ (x : List Nat) (v : Nat), (∃ p ∈ gather_lines x, p.1 ≤ v ∧ v ≤ p.2) ↔ v ∈ x) ∧
    (∀ (hunks : List Hunk) (raw : List Nat), List.Sorted (· ≤ ·) raw →
      ∀ v ∈ raw, ∃ p ∈ hunked_lines hunks raw, p.1 ≤ v ∧ v ≤ p.2) := by
  constructor
  · intro x v
    exact gather_lines_covered x v
  · intro hunks raw hsort v hv
    obtain ⟨p, hp, h1, h2⟩ :=
      (hunked_fold_spec hunks raw [] hsort (by intro p hp; simp at hp)
        (by intro u _ q hq; simp at hq)).2 v hv
    exact ⟨p, List.mem_reverse.mpr hp, h1, h2⟩

/-- Witness for C4: the hunk-mode half applied to the ascending input `[1]`
with no hunks. -/
theorem coalescer_union_spec_witness :
    ∃ p ∈ hunked_lines [] [1], p.1 ≤ 1 ∧ 1 ≤ p.2 :=
  coalescer_union_spec.2 [] [1] (by decide) 1 (by decide)

/-- C8 (counterexample).  The grouper does not deduplicate uncovered lines:
two `LineData` records with count 0 for the same line leave a duplicated
entry in the file's `lines`. -/
theorem group_data_lines_duplicate_counterexample :
    (LcovWrapper.group_data
        [.sourceFile "a", .lineData 5 0, .lineData 5 0]).map LcovFileCoverage.lines =
      [[5, 5]] ∧
    ¬ ([5, 5] : List Nat).Nodup := by
  constructor
  · simp [LcovWrapper.group_data, LcovWrapper.groupStep, LcovWrapper.pushLastLine]
  · decide

/-- C8 (amended).  Every file produced by the grouper has its `lines` sorted
ascending once the whole stream is consumed, even for unsorted input, but
duplicates are preserved, not removed.  (This holds for the
`crates/shared` grouper, which ends with `file.lines.sort()`; the legacy
copy in `src/coverage/lcov.rs` omits that sort.) -/
theorem group_data_lines_sorted :
    ∀ (records : List LcovRecord) (fc : LcovFileCoverage),
      fc ∈ LcovWrapper.group_data records → List.Sorted (· ≤ ·) fc.lines := by
  intro records fc hfc
  rw [LcovWrapper.group_data] at hfc
  obtain ⟨f, hf, rfl⟩ := List.mem_map.mp hfc
  exact List.sorted_insertionSort (· ≤ ·) _

/-- Witness for C8: the single file of the stream `SF:a / DA:5,0` has sorted
`lines`. -/
theorem group_data_lines_sorted_witness :
    List.Sorted (· ≤ ·) (LcovFileCoverage.mk "a" (F64.fin 0) [5]).lines :=
  group_data_lines_sorted [.sourceFile "a", .lineData 5 0]
    (LcovFileCoverage.mk "a" (F64.fin 0) [5]) (List.mem_singleton.mpr rfl)

/-- C10.  When both accumulated totals are zero the aggregate percentage is
`0/0 * 100 = NaN`, and `make_percent` maps it to `0` basis points: the
clamp, the multiplication and the round all propagate NaN and the final
`as i16` cast sends NaN to zero, so the snapshot silently records 0.00%. -/
theorem make_percent_nan_zero :
    ∀ records : List LcovRecord,
      LcovWrapper.sumLinesFound records = 0 → LcovWrapper.sumLinesHit records = 0 →
      LcovWrapper.percentage records = F64.nan ∧
      make_percent (LcovWrapper.percentage records) = 0 := by
  intro records hf hh
  have hp : LcovWrapper.percentage records = F64.nan := by
    rw [LcovWrapper.percentage, hf, hh]
    rfl
  exact ⟨hp, by rw [hp]; rfl⟩

/-- Witness for C10: the empty stream has zero totals and is encoded as 0
basis points. -/
theorem make_percent_nan_zero_witness :
    LcovWrapper.percentage [] = F64.nan ∧ make_percent (LcovWrapper.percentage []) = 0 :=
  make_percent_nan_zero [] rfl rfl

namespace BranchCoverageRecordCollection

theorem stripOld_timestamp (h : ℤ) (r : BranchCoverageRecord) :
    (stripOld h r).timestamp = r.timestamp := by
  rw [stripOld]
  split <;> rfl

theorem stripOld_self {h : ℤ} {r : BranchCoverageRecord} (hts : r.timestamp = h) :
    stripOld h r = r := by
  rw [stripOld, if_neg (by simp [hts])]

theorem stripOld_clears {h : ℤ} {r : BranchCoverageRecord} (hts : r.timestamp ≠ h) :
    stripOld h r = { r with files := none } := by
  rw [stripOld, if_pos hts]

theorem maxTs_map_stripOld (h : ℤ) :
    ∀ l : List BranchCoverageRecord, maxTs (l.map (stripOld h)) = maxTs l := by
  intro l
  induction l with
  | nil => rfl
  | cons r rest ih =>
      rw [List.map_cons, maxTs, maxTs, ih, stripOld_timestamp]

theorem maxTs_append_max :
    ∀ (l : List BranchCoverageRecord) (new : BranchCoverageRecord),
      (∀ r ∈ l, r.timestamp ≤ new.timestamp) →
      maxTs (l ++ [new]) = some new.timestamp := by
  intro l new hle
  induction l with
  | nil => rfl
  | cons r rest ih =>
      rw [List.cons_append, maxTs, ih (fun r2 hr2 => hle r2 (by simp [hr2]))]
      have := hle r (by simp)
      simp only [Option.some.injEq]
      omega

/-- C5.  Retention: after any append, every remaining record's timestamp is
at least `now - 90 days`; in particular appending at `t0` and then at
`t0 + 91 days` (= `t0 + 7862400` seconds) to a fresh collection leaves only
the second record. -/
theorem add_new_record_retention :
    (∀ (c : BranchCoverageRecordCollection) (p : F64)
        (files : List (String × FileCoverageRecord)) (now : ℤ),
      ∀ r ∈ (add_new_record c p files now).records,
        now - ninetyDaysSeconds ≤ r.timestamp) ∧
    (∀ (team : Team) (t0 : ℤ) (p1 p2 : F64)
        (f1 f2 : List (String × FileCoverageRecord)),
      (add_new_record (add_new_record ⟨team, []⟩ p1 f1 t0) p2 f2 (t0 + 7862400)).records =
        [⟨t0 + 7862400, make_percent p2, some f2⟩]) := by
  constructor
  · intro c p files now r hr
    simp only [add_new_record, remove_old_records] at hr
    split at hr
    · obtain ⟨r0, hr0, rfl⟩ := List.mem_map.mp hr
      rw [stripOld_timestamp]
      exact of_decide_eq_true (List.mem_filter.mp hr0).2
    · exact of_decide_eq_true (List.mem_filter.mp hr).2
  · intro team t0 p1 p2 f1 f2
    have hstep1 : add_new_record ⟨team, []⟩ p1 f1 t0 =
        ⟨team, [⟨t0, make_percent p1, some f1⟩]⟩ := by
      simp only [add_new_record, remove_old_records, List.nil_append]
      rw [List.filter_cons, List.filter_nil]
      rw [decide_eq_true (show t0 - ninetyDaysSeconds ≤ t0 by rw [ninetyDaysSeconds]; omega)]
      simp only [latest_timestamp, maxTs, List.map_cons, List.map_nil]
      simp [stripOld]
    rw [hstep1]
    simp only [add_new_record, remove_old_records, List.cons_append, List.nil_append]
    rw [List.filter_cons, List.filter_cons, List.filter_nil]
    rw [decide_eq_false (show ¬ (t0 + 7862400 - ninetyDaysSeconds ≤ t0) by
      rw [ninetyDaysSeconds]; omega)]
    rw [decide_eq_true (show t0 + 7862400 - ninetyDaysSeconds ≤ t0 + 7862400 by
      rw [ninetyDaysSeconds]; omega)]
    simp only [latest_timestamp, maxTs, List.map_cons, List.map_nil]
    simp [stripOld]

/-- Witness for C5: the retention bound applied to an append on the empty
collection at time 0. -/
theorem add_new_record_retention_witness :
    (0 : ℤ) - ninetyDaysSeconds ≤
      (BranchCoverageRecord.mk 0 (make_percent F64.nan) (some [])).timestamp :=
  add_new_record_retention.1 ⟨Team.other, []⟩ F64.nan [] 0
    ⟨0, make_percent F64.nan, some []⟩ (by decide)

theorem maxTs_ne_none {l : List BranchCoverageRecord} (h : l ≠ []) :
    ∃ t, maxTs l = some t := by
  cases l with
  | nil => exact absurd rfl h
  | cons r rest => exact ⟨_, rfl⟩

theorem add_new_record_records_eq (c : BranchCoverageRecordCollection) (p : F64)
    (files : List (String × FileCoverageRecord)) (now : ℤ) :
    ∃ h, maxTs ((c.records ++ [BranchCoverageRecord.mk now (make_percent p) (some files)]).filter
        (fun item => decide (now - ninetyDaysSeconds ≤ item.timestamp))) = some h ∧
      (add_new_record c p files now).records =
        ((c.records ++ [BranchCoverageRecord.mk now (make_percent p) (some files)]).filter
          (fun item => decide (now - ninetyDaysSeconds ≤ item.timestamp))).map (stripOld h) := by
  have hne : (c.records ++ [BranchCoverageRecord.mk now (make_percent p) (some files)]).filter
      (fun item => decide (now - ninetyDaysSeconds ≤ item.timestamp)) ≠ [] := by
    rw [List.filter_append, List.filter_cons, List.filter_nil]
    rw [decide_eq_true (show now - ninetyDaysSeconds ≤ now by rw [ninetyDaysSeconds]; omega)]
    simp
  obtain ⟨h, hh⟩ := maxTs_ne_none hne
  refine ⟨h, hh, ?_⟩
  simp only [add_new_record, remove_old_records, latest_timestamp]
  rw [hh]

/-- C6 (counterexample).  Two appends carrying the same timestamp (two runs
within the same clock second) leave two records with `files` present: the
detail-stripping pass only clears records whose timestamp differs from the
maximum, so a timestamp tie defeats the at-most-one invariant. -/
theorem add_new_record_detail_tie_counterexample :
    ((add_new_record (add_new_record ⟨Team.other, []⟩ F64.nan [] 0) F64.nan [] 0).records.filter
        (fun r => r.files.isSome)).length = 2 ∧
    ¬ ((add_new_record (add_new_record ⟨Team.other, []⟩ F64.nan [] 0) F64.nan [] 0).records.filter
        (fun r => r.files.isSome)).length ≤ 1 := by
  constructor
  · decide
  · decide

/-- C6 (amended).  After any append, every record whose timestamp is not
the maximum has `files` cleared; and when the append time is strictly newer
than every prior record (the intended monotonic-clock case), the newly
appended record is the unique carrier of `files` and is never itself
stripped. -/
theorem add_new_record_detail_stripping :
    (∀ (c : BranchCoverageRecordCollection) (p : F64)
        (files : List (String × FileCoverageRecord)) (now hmax : ℤ),
      latest_timestamp (add_new_record c p files now) = some hmax →
      ∀ r ∈ (add_new_record c p files now).records,
        r.timestamp ≠ hmax → r.files = none) ∧
    (∀ (c : BranchCoverageRecordCollection) (p : F64)
        (files : List (String × FileCoverageRecord)) (now : ℤ),
      (∀ r ∈ c.records, r.timestamp < now) →
      (add_new_record c p files now).records.filter (fun r => r.files.isSome) =
        [⟨now, make_percent p, some files⟩]) := by
  constructor
  · intro c p files now hmax hlatest r hr hne
    obtain ⟨h, hh, hrec⟩ := add_new_record_records_eq c p files now
    have hlat2 : latest_timestamp (add_new_record c p files now) = some h := by
      rw [latest_timestamp, hrec, maxTs_map_stripOld, hh]
    rw [hlat2, Option.some.injEq] at hlatest
    subst hlatest
    rw [hrec] at hr
    obtain ⟨r0, hr0, rfl⟩ := List.mem_map.mp hr
    rw [stripOld_timestamp] at hne
    rw [stripOld_clears hne]
  · intro c p files now hlt
    simp only [add_new_record, remove_old_records, latest_timestamp]
    rw [List.filter_append, List.filter_cons, List.filter_nil]
    rw [decide_eq_true (show now - ninetyDaysSeconds ≤ now by rw [ninetyDaysSeconds]; omega)]
    simp only [if_true]
    have hkept : ∀ r ∈ c.records.filter
        (fun item => decide (now - ninetyDaysSeconds ≤ item.timestamp)),
        r.timestamp < now := fun r hr => hlt r (List.mem_filter.mp hr).1
    rw [maxTs_append_max _ _ (fun r hr => le_of_lt (hkept r hr))]
    simp only [List.map_append, List.map_cons, List.map_nil]
    rw [List.filter_append]
    have hnil : (List.map (stripOld now) (c.records.filter
        (fun item => decide (now - ninetyDaysSeconds ≤ item.timestamp)))).filter
        (fun r => r.files.isSome) = [] := by
      rw [List.filter_eq_nil_iff]
      intro a ha
      obtain ⟨r0, hr0, rfl⟩ := List.mem_map.mp ha
      rw [stripOld_clears (by have := hkept r0 hr0; omega)]
      simp
    rw [hnil]
    rw [show stripOld now ⟨now, make_percent p, some files⟩ =
      ⟨now, make_percent p, some files⟩ from by simp [stripOld]]
    simp

/-- Witness for C6: a collection holding one strictly older record; after
the append at time 5 the only `files` carrier is the new record. -/
theorem add_new_record_detail_stripping_witness :
    (add_new_record ⟨Team.other, [⟨0, 7, none⟩]⟩ F64.nan [] 5).records.filter
        (fun r => r.files.isSome) =
      [⟨5, make_percent F64.nan, some []⟩] :=
  add_new_record_detail_stripping.2 ⟨Team.other, [⟨0, 7, none⟩]⟩ F64.nan [] 5
    (by intro r hr; rcases List.mem_singleton.mp hr with rfl; decide)

theorem sorted_tsLe_all_le_getLast :
    ∀ {l : List BranchCoverageRecord} (hs : List.Sorted tsLe l) (hne : l ≠ [])
      (x : BranchCoverageRecord), x ∈ l → tsLe x (l.getLast hne) := by
  intro l
  induction l with
  | nil => intro _ hne; exact absurd rfl hne
  | cons a rest ih =>
      intro hs hne x hx
      cases rest with
      | nil =>
          rcases List.mem_singleton.mp hx with rfl
          exact le_refl _
      | cons b t =>
          rw [List.getLast_cons (List.cons_ne_nil b t)]
          rw [List.sorted_cons] at hs
          rcases List.mem_cons.mp hx with rfl | hmem
          · exact hs.1 _ (List.getLast_mem (List.cons_ne_nil b t))
          · exact ih hs.2 (List.cons_ne_nil b t) x hmem

/-- C7.  `delta` considers exactly the records whose timestamp lies in the
inclusive window `[periodStartTs, periodEndTs]`: it returns `none` when none
match, the single match's raw stored percentage when exactly one matches,
and newest-in-window minus oldest-in-window (by timestamp) when two or more
match. -/
theorem delta_window_spec (c : BranchCoverageRecordCollection) (s e : ℤ) :
    (windowMatches c s e = [] → delta c s e = none) ∧
    (∀ r0, windowMatches c s e = [r0] → delta c s e = some r0.percentage) ∧
    (2 ≤ (windowMatches c s e).length →
      ∃ o n, o ∈ windowMatches c s e ∧ n ∈ windowMatches c s e ∧
        (∀ r ∈ windowMatches c s e, o.timestamp ≤ r.timestamp) ∧
        (∀ r ∈ windowMatches c s e, r.timestamp ≤ n.timestamp) ∧
        delta c s e = some (n.percentage - o.percentage)) := by
  refine ⟨fun hempty => ?_, fun r0 hone => ?_, fun htwo => ?_⟩
  · rw [delta, hempty]
    rfl
  · rw [delta, hone]
    rfl
  · have hperm := List.perm_insertionSort tsLe (windowMatches c s e)
    have hsorted := List.sorted_insertionSort tsLe (windowMatches c s e)
    have hlen : 2 ≤ (List.insertionSort tsLe (windowMatches c s e)).length := by
      rw [hperm.length_eq]; exact htwo
    rcases hL : List.insertionSort tsLe (windowMatches c s e) with _ | ⟨a, rest⟩
    · rw [hL] at hlen; simp at hlen
    · cases rest with
      | nil => rw [hL] at hlen; simp at hlen
      | cons b t =>
          have hne : b :: t ≠ [] := List.cons_ne_nil b t
          refine ⟨a, (b :: t).getLast hne, ?_, ?_, ?_, ?_, ?_⟩
          · exact hperm.mem_iff.mp (by rw [hL]; simp)
          · refine hperm.mem_iff.mp ?_
            rw [hL]
            exact List.mem_cons_of_mem a (List.getLast_mem hne)
          · intro r hr
            have hrL : r ∈ a :: b :: t := by
              rw [← hL]
              exact hperm.mem_iff.mpr hr
            rw [hL] at hsorted
            rw [List.sorted_cons] at hsorted
            rcases List.mem_cons.mp hrL with rfl | hmem
            · exact le_refl _
            · exact hsorted.1 r hmem
          · intro r hr
            have hrL : r ∈ a :: b :: t := by
              rw [← hL]
              exact hperm.mem_iff.mpr hr
            rw [hL] at hsorted
            have hall := sorted_tsLe_all_le_getLast hsorted (List.cons_ne_nil a (b :: t)) r hrL
            rw [List.getLast_cons hne] at hall
            exact hall
          · rw [delta, hL]
            show (match (b :: t).getLast? with
              | some newest => some (newest.percentage - a.percentage)
              | none => some a.percentage) =
              some (((b :: t).getLast hne).percentage - a.percentage)
            rw [List.getLast?_eq_getLast (b :: t) hne]

/-- Witness for C7: a window holding exactly one record returns that
record's raw percentage. -/
theorem delta_window_spec_witness :
    delta ⟨Team.other, [⟨5, 42, none⟩]⟩ 0 10 = some 42 :=
  (delta_window_spec ⟨Team.other, [⟨5, 42, none⟩]⟩ 0 10).2.1 ⟨5, 42, none⟩ (by decide)

end BranchCoverageRecordCollection
